import Mathlib

/-!
Verification of `src/sage/graphs/linearextensions.py` (linear extensions of a
directed acyclic graph).

The Python file is a thin wrapper: `LinearExtensions.__init__` validates the
input DAG by building a `Poset` (raising an error on a cyclic input), and
`LinearExtensions.__iter__` delegates the actual generation to
`sage.combinat.combinat_cython.linear_extension_iterator`, mapping the internal
integer positions of each produced extension back to the caller's vertex
labels.  Both the `Poset` constructor and the generation engine live elsewhere
in the repository, so they are modelled here from the specification.

The order model: vertices are the internal indices `0 .. n-1`; the input edge
relation is a list of ordered pairs; `reaches` is its transitive closure
(computed with fuel `n`, which bounds the length of any simple path or
shortest cycle); a DAG is acyclic when no vertex reaches itself.
-/

/-- The input DAG: `n` vertices with internal indices `0 .. n-1`, and a list
of directed edges between them. -/
structure Dag where
  n : Nat
  edges : List (Nat × Nat)
deriving DecidableEq

/-- One directed edge from `u` to `v`. -/
def Dag.adj (d : Dag) (u v : Nat) : Bool :=
  d.edges.contains (u, v)

/-- Fuel-bounded reachability along at least one edge: `reachesAux d f u v`
holds when there is a path from `u` to `v` using between `1` and `f + 1`
edges (intermediate vertices drawn from `0 .. n-1`). -/
def reachesAux (d : Dag) : Nat → Nat → Nat → Bool
  | 0, u, v => d.adj u v
  | fuel + 1, u, v =>
    d.adj u v || (List.range d.n).any fun w => d.adj u w && reachesAux d fuel w v

/-- Transitive closure of the edge relation: `u` strictly precedes `v` in the
order.  Fuel `n` suffices: any shortest path and any shortest cycle inside
`0 .. n-1` uses at most `n` edges. -/
def reaches (d : Dag) (u v : Nat) : Bool :=
  reachesAux d d.n u v

/-- No vertex reaches itself through the transitive closure: the input
relation is a strict partial order. -/
def isAcyclic (d : Dag) : Bool :=
  (List.range d.n).all fun v => !(reaches d v v)

/-- Two vertices are incomparable when neither reaches the other. -/
def incomparableB (d : Dag) (u v : Nat) : Bool :=
  !(reaches d u v) && !(reaches d v u)

/-- `u` is covered by `v`: `u < v` in the order with no element strictly in
between (the Hasse-diagram relation obtained by transitive reduction). -/
def covers (d : Dag) (u v : Nat) : Bool :=
  reaches d u v && !((List.range d.n).any fun c => reaches d u c && reaches d c v)

/-- Executable test that the list `l` is a linear extension: a permutation of
`0 .. n-1` in which every strict order relation `u < v` puts `u` at an
earlier position than `v`. -/
def isLinExtB (d : Dag) (l : List Nat) : Bool :=
  decide (List.Perm l (List.range d.n)) &&
    (List.range d.n).all fun u => (List.range d.n).all fun v =>
      !(reaches d u v) || decide (l.indexOf u < l.indexOf v)

/-- The specification's notion of a linear extension of the order: a
permutation of the vertex indices respecting the transitive closure. -/
def IsLinearExtension (d : Dag) (l : List Nat) : Prop :=
  List.Perm l (List.range d.n) ∧
    ∀ u v, u < d.n → v < d.n → reaches d u v = true → l.indexOf u < l.indexOf v

/-- Modelled from the spec: the CAT generation engine
(`sage.combinat.combinat_cython.linear_extension_iterator`, imported by
`LinearExtensions.__iter__` but not present under `src/`) is modelled by its
contract in spec sections 4.3 and 4.4 — the complete, duplicate-free, finite
sequence of all linear extensions of the order, emitted in a fixed
deterministic order (here: the order induced by `List.permutations'` of
`0 .. n-1`).  The spec's per-step adjacent-transposition discipline is not
part of this model; it is mathematically incompatible with completeness (see
the two-chain analysis below). -/
def linearExtensionsList (d : Dag) : List (List Nat) :=
  (List.range d.n).permutations'.filter (isLinExtB d)

/-- Modelled from the spec (section 9): the lazy generator is an explicit
state object holding the still-unemitted extensions of one generation run. -/
structure EnumState where
  pending : List (List Nat)
deriving DecidableEq

/-- Modelled from the spec (section 9): the pull operation of one generation
run — emit the next extension and the advanced state, or signal exhaustion. -/
def EnumState.next : EnumState → Option (List Nat × EnumState)
  | ⟨[]⟩ => none
  | ⟨x :: xs⟩ => some (x, ⟨xs⟩)

/-- Modelled from the spec (section 4.4): a fresh generation run over an
order starts with its own private Extension State. -/
def LinearExtensions.freshRun (d : Dag) : EnumState :=
  ⟨linearExtensionsList d⟩

/-- Everything a run emits when pulled until exhaustion (the still-pending
extensions, in order; `EnumState.emissions_next` below relates this to
repeated use of `EnumState.next`). -/
def EnumState.emissions (s : EnumState) : List (List Nat) :=
  s.pending

/-- Two runs pulled alternately: the pair of emission sequences collected by
each run.  The first component lists what the first machine emits, the second
what the second machine emits. -/
def runBoth : EnumState → EnumState → List (List Nat) × List (List Nat)
  | ⟨[]⟩, s₂ => ([], s₂.emissions)
  | ⟨x :: xs⟩, s₂ =>
    let p := runBoth s₂ ⟨xs⟩
    (x :: p.2, p.1)
termination_by s₁ s₂ => s₁.pending.length + s₂.pending.length
decreasing_by simp; omega

/-- Modelled from the spec (sections 6 and 7): construction's single error
kind, raised when the input relation has a directed cycle. -/
inductive ConstructionError where
  | notAcyclicError
deriving DecidableEq

/-- Modelled from the spec: `LinearExtensions.__init__` builds the order
model via `Poset(dag)` (not under `src/`), which fails exactly when the input
is not acyclic; on success the validated order is returned. -/
def mkLinearExtensions (d : Dag) : Except ConstructionError Dag :=
  if isAcyclic d then .ok d else .error .notAcyclicError

/-- The extensions produced from a construction attempt: a failed
construction produces none. -/
def extensionsOfResult : Except ConstructionError Dag → List (List Nat)
  | .error _ => []
  | .ok d => linearExtensionsList d

/-- `LinearExtensions.__iter__` (source lines 131-134): each internal
extension `e` is emitted as `[elts[i] for i in e]`, translating internal
indices back to the caller's vertex labels `elts`. -/
def LinearExtensions.iterLabels {α : Type} (d : Dag) (elts : List α) (dflt : α) :
    List (List α) :=
  (linearExtensionsList d).map fun e => e.map fun i => elts.getD i dflt

/-- The list of consecutive pairs of a list: `(l[i], l[i+1])` for each `i`. -/
def consecPairs {β : Type} : List β → List (β × β)
  | [] => []
  | [_] => []
  | x :: y :: t => (x, y) :: consecPairs (y :: t)

/-- The transition property claimed between two consecutively emitted
extensions: they differ in exactly two positions, those positions are
adjacent, and the two elements occupying them are incomparable in the order
(i.e. the step is one adjacent transposition of an incomparable pair). -/
def twoAdjIncompDiff (d : Dag) (p q : List Nat) : Bool :=
  match (List.range d.n).filter (fun i => p.getD i 0 != q.getD i 0) with
  | [i, j] => j == i + 1 && incomparableB d (p.getD i 0) (p.getD j 0)
  | _ => false

/-- A sequence of emitted extensions satisfies the adjacent-transposition
property when every consecutive pair does. -/
def grayB (d : Dag) (l : List (List Nat)) : Bool :=
  (consecPairs l).all fun pq => twoAdjIncompDiff d pq.1 pq.2

/-- The DAG of Example 1 in the spec and of the doctest in the source:
`{0→1, 0→2, 1→3, 2→3, 2→4}` on five vertices. -/
def exampleDag : Dag :=
  ⟨5, [(0, 1), (0, 2), (1, 3), (2, 3), (2, 4)]⟩

/-- Two disjoint two-element chains `{0→1, 2→3}`: the parity obstruction to
a single-adjacent-transposition listing.  Its six extensions split into four
even and two odd permutations, and the swap graph is bipartite by parity, so
no Hamiltonian listing by single adjacent transpositions exists. -/
def twoChainsDag : Dag :=
  ⟨4, [(0, 1), (2, 3)]⟩

/-- The 2-cycle of Example 3 in the spec and the TESTS block of the source:
`{0→1, 1→0}`. -/
def cyclicDag : Dag :=
  ⟨2, [(0, 1), (1, 0)]⟩

instance (d : Dag) (l : List Nat) : Decidable (IsLinearExtension d l) :=
  decidable_of_iff
    (List.Perm l (List.range d.n) ∧
      ∀ u, u < d.n → ∀ v, v < d.n → reaches d u v = true → l.indexOf u < l.indexOf v)
    (by
      constructor
      · rintro ⟨h1, h2⟩
        exact ⟨h1, fun u v hu hv hr => h2 u hu v hv hr⟩
      · rintro ⟨h1, h2⟩
        exact ⟨h1, fun u hu v hv hr => h2 u v hu hv hr⟩)

/-- The number of linear extensions of the order: the count of permutations
of `0 .. n-1` (gathered as a finite set) that satisfy `IsLinearExtension`. -/
def trueExtensionCount (d : Dag) : Nat :=
  ((List.range d.n).permutations'.toFinset.filter fun l => IsLinearExtension d l).card

theorem EnumState.emissions_next (s : EnumState) :
    s.emissions =
      match s.next with
      | none => []
      | some (x, s') => x :: s'.emissions := by
  obtain ⟨l⟩ := s
  cases l with
  | nil => rfl
  | cons x xs => rfl

theorem runBoth_eq (s₁ s₂ : EnumState) :
    runBoth s₁ s₂ = (s₁.emissions, s₂.emissions) := by
  induction s₁, s₂ using runBoth.induct with
  | case1 s₂ => simp [runBoth, EnumState.emissions]
  | case2 x xs s₂ ih => simp [runBoth, EnumState.emissions, ih]

theorem linearExtensionsList_nodup (d : Dag) : (linearExtensionsList d).Nodup := by
  have h1 : (List.range d.n).permutations.Nodup :=
    List.nodup_permutations _ (List.nodup_range d.n)
  have h2 : (List.range d.n).permutations'.Nodup :=
    (List.permutations_perm_permutations' (List.range d.n)).nodup_iff.mp h1
  exact h2.filter _

theorem isLinExtB_iff (d : Dag) (l : List Nat) :
    isLinExtB d l = true ↔ IsLinearExtension d l := by
  simp only [isLinExtB, IsLinearExtension, Bool.and_eq_true, decide_eq_true_eq,
    List.all_eq_true, List.mem_range, Bool.or_eq_true, Bool.not_eq_true']
  constructor
  · rintro ⟨h1, h2⟩
    refine ⟨h1, fun u v hu hv hr => ?_⟩
    rcases h2 u hu v hv with h | h
    · rw [hr] at h
      cases h
    · exact h
  · rintro ⟨h1, h2⟩
    refine ⟨h1, fun u hu v hv => ?_⟩
    by_cases hr : reaches d u v = true
    · exact Or.inr (h2 u v hu hv hr)
    · exact Or.inl (by simpa using hr)

theorem mem_linearExtensionsList (d : Dag) (l : List Nat) :
    l ∈ linearExtensionsList d ↔ IsLinearExtension d l := by
  rw [linearExtensionsList, List.mem_filter, List.mem_permutations']
  constructor
  · rintro ⟨_, hb⟩
    exact (isLinExtB_iff d l).mp hb
  · intro h
    exact ⟨h.1, (isLinExtB_iff d l).mpr h⟩

theorem consecPairs_mem {β : Type} (l : List β) (p q : β)
    (h : (p, q) ∈ consecPairs l) : p ∈ l ∧ q ∈ l := by
  induction l with
  | nil => cases h
  | cons x t ih =>
    cases t with
    | nil => cases h
    | cons y t' =>
      rw [consecPairs] at h
      rcases List.mem_cons.mp h with h | h
      · obtain ⟨rfl, rfl⟩ := Prod.mk.injEq .. ▸ h
        exact ⟨List.mem_cons_self .., List.mem_cons_of_mem _ (List.mem_cons_self ..)⟩
      · obtain ⟨hp, hq⟩ := ih h
        exact ⟨List.mem_cons_of_mem _ hp, List.mem_cons_of_mem _ hq⟩

theorem consecPairs_ne_of_nodup {β : Type} (l : List β) (hnd : l.Nodup) (p q : β)
    (h : (p, q) ∈ consecPairs l) : p ≠ q := by
  induction l with
  | nil => cases h
  | cons x t ih =>
    cases t with
    | nil => cases h
    | cons y t' =>
      rw [consecPairs] at h
      rcases List.mem_cons.mp h with h | h
      · obtain ⟨rfl, rfl⟩ := Prod.mk.injEq .. ▸ h
        have hx : p ∉ q :: t' := (List.nodup_cons.mp hnd).1
        intro hpq
        exact hx (hpq ▸ List.mem_cons_self ..)
      · exact ih hnd.of_cons h

theorem map_getD_range {α : Type} (elts : List α) (dflt : α) :
    (List.range elts.length).map (fun i => elts.getD i dflt) = elts := by
  induction elts with
  | nil => rfl
  | cons a t ih =>
    rw [List.length_cons, List.range_succ_eq_map, List.map_cons, List.map_map]
    simp only [List.getD_cons_zero, Function.comp_def, List.getD_cons_succ]
    rw [ih]

/-- C1: For every acyclic input DAG, the set of sequences produced by
iterating the enumeration is exactly the set of all linear extensions of the
DAG's partial order: no sequence is emitted twice and none is skipped, so the
number of emissions equals the true count of linear extensions. -/
theorem claim1_enumeration_complete_and_duplicate_free (d : Dag)
    (hacy : isAcyclic d = true) :
    (LinearExtensions.freshRun d).emissions.Nodup ∧
      ∀ l : List Nat,
        l ∈ (LinearExtensions.freshRun d).emissions ↔ IsLinearExtension d l :=
  ⟨linearExtensionsList_nodup d, fun l => mem_linearExtensionsList d l⟩

theorem claim1_enumeration_complete_and_duplicate_free_witness :
    isAcyclic exampleDag = true ∧
      (LinearExtensions.freshRun exampleDag).emissions.Nodup ∧
        ([0, 2, 4, 1, 3] ∈ (LinearExtensions.freshRun exampleDag).emissions ↔
          IsLinearExtension exampleDag [0, 2, 4, 1, 3]) :=
  ⟨by decide,
    (claim1_enumeration_complete_and_duplicate_free exampleDag (by decide)).1,
    (claim1_enumeration_complete_and_duplicate_free exampleDag (by decide)).2 [0, 2, 4, 1, 3]⟩

/-- C3: Every sequence emitted by the enumeration is a valid linear extension
of the input order: for every covering pair `(u, v)` — and for every pair in
the transitive closure — `u` appears strictly earlier than `v`. -/
theorem claim3_emitted_extensions_valid (d : Dag) (l : List Nat)
    (hl : l ∈ (LinearExtensions.freshRun d).emissions) (u v : Nat)
    (hu : u < d.n) (hv : v < d.n) :
    (covers d u v = true → l.indexOf u < l.indexOf v) ∧
      (reaches d u v = true → l.indexOf u < l.indexOf v) := by
  have h := (mem_linearExtensionsList d l).mp hl
  refine ⟨fun hc => ?_, fun hr => h.2 u v hu hv hr⟩
  rw [covers, Bool.and_eq_true] at hc
  exact h.2 u v hu hv hc.1

theorem claim3_emitted_extensions_valid_witness :
    covers exampleDag 0 1 = true ∧
      List.indexOf 0 [0, 1, 2, 3, 4] < List.indexOf 1 [0, 1, 2, 3, 4] :=
  ⟨by decide,
    (claim3_emitted_extensions_valid exampleDag [0, 1, 2, 3, 4] (by decide) 0 1
      (by decide) (by decide)).1 (by decide)⟩

/-- C4: Construction from a cyclic input fails with the single error kind
`notAcyclicError` and produces no extensions; acyclic inputs construct
successfully; and no other construction-time error kind exists. -/
theorem claim4_cycle_rejection_single_error_kind (d : Dag) :
    (isAcyclic d = false →
        mkLinearExtensions d = Except.error ConstructionError.notAcyclicError ∧
          extensionsOfResult (mkLinearExtensions d) = []) ∧
      (isAcyclic d = true → mkLinearExtensions d = Except.ok d) ∧
      ∀ e : ConstructionError, e = ConstructionError.notAcyclicError := by
  refine ⟨fun hcyc => ?_, fun hacy => ?_, fun e => ?_⟩
  · rw [mkLinearExtensions, hcyc]
    exact ⟨rfl, rfl⟩
  · rw [mkLinearExtensions, hacy]
    rfl
  · cases e
    rfl

theorem claim4_cycle_rejection_single_error_kind_witness :
    (mkLinearExtensions cyclicDag = Except.error ConstructionError.notAcyclicError ∧
        extensionsOfResult (mkLinearExtensions cyclicDag) = []) ∧
      mkLinearExtensions exampleDag = Except.ok exampleDag :=
  ⟨(claim4_cycle_rejection_single_error_kind cyclicDag).1 (by decide),
    (claim4_cycle_rejection_single_error_kind exampleDag).2.1 (by decide)⟩

/-- C5: For the order `{0→1, 0→2, 1→3, 2→3, 2→4}`, the enumeration yields,
as a set, exactly the five extensions of Example 1 and no others. -/
theorem claim5_example_dag_five_extensions :
    (LinearExtensions.freshRun exampleDag).emissions.toFinset =
        ([[0, 1, 2, 3, 4], [0, 1, 2, 4, 3], [0, 2, 1, 3, 4], [0, 2, 1, 4, 3],
          [0, 2, 4, 1, 3]] : List (List Nat)).toFinset ∧
      (LinearExtensions.freshRun exampleDag).emissions.length = 5 := by
  exact ⟨by decide, by decide⟩

/-- C6: For the empty input (zero vertices, no edges), the enumeration yields
exactly one extension — the empty sequence — and then terminates: the first
pull emits `[]` and the next pull signals exhaustion. -/
theorem claim6_empty_dag_single_empty_extension :
    (LinearExtensions.freshRun ⟨0, []⟩).emissions = [[]] ∧
      (LinearExtensions.freshRun ⟨0, []⟩).next = some ([], ⟨[]⟩) ∧
      EnumState.next ⟨[]⟩ = (none : Option (List Nat × EnumState)) := by
  exact ⟨by decide, by decide, by decide⟩

/-- C7: Two separate enumeration runs over the same order — even pulled
alternately — emit the same set of extensions, and neither run's emission
sequence is affected by the other run's presence. -/
theorem claim7_two_runs_same_set_no_interference (d : Dag)
    (hacy : isAcyclic d = true) :
    (runBoth (LinearExtensions.freshRun d) (LinearExtensions.freshRun d)).1 =
        (LinearExtensions.freshRun d).emissions ∧
      (runBoth (LinearExtensions.freshRun d) (LinearExtensions.freshRun d)).2 =
        (LinearExtensions.freshRun d).emissions ∧
      (runBoth (LinearExtensions.freshRun d) (LinearExtensions.freshRun d)).1.toFinset =
        (runBoth (LinearExtensions.freshRun d) (LinearExtensions.freshRun d)).2.toFinset := by
  rw [runBoth_eq]
  exact ⟨rfl, rfl, rfl⟩

theorem claim7_two_runs_same_set_no_interference_witness :
    (runBoth (LinearExtensions.freshRun exampleDag) (LinearExtensions.freshRun exampleDag)).1 =
        (LinearExtensions.freshRun exampleDag).emissions ∧
      (runBoth (LinearExtensions.freshRun exampleDag) (LinearExtensions.freshRun exampleDag)).2 =
        (LinearExtensions.freshRun exampleDag).emissions ∧
      (runBoth (LinearExtensions.freshRun exampleDag)
            (LinearExtensions.freshRun exampleDag)).1.toFinset =
        (runBoth (LinearExtensions.freshRun exampleDag)
            (LinearExtensions.freshRun exampleDag)).2.toFinset :=
  claim7_two_runs_same_set_no_interference exampleDag (by decide)

/-- C8: For every acyclic input order, the enumeration is finite and
terminates after exactly as many emissions as the order has linear
extensions. -/
theorem claim8_terminates_after_exact_count (d : Dag) (hacy : isAcyclic d = true) :
    (LinearExtensions.freshRun d).emissions.length = trueExtensionCount d := by
  have hnd := linearExtensionsList_nodup d
  have h1 : (LinearExtensions.freshRun d).emissions.length
      = (linearExtensionsList d).toFinset.card := (List.toFinset_card_of_nodup hnd).symm
  rw [h1, trueExtensionCount, linearExtensionsList, List.toFinset_filter]
  congr 1
  apply Finset.filter_congr
  intro l _
  simpa using isLinExtB_iff d l

theorem claim8_terminates_after_exact_count_witness :
    (LinearExtensions.freshRun exampleDag).emissions.length = trueExtensionCount exampleDag :=
  claim8_terminates_after_exact_count exampleDag (by decide)

/-- C9: Every sequence emitted through the label interface has length `n`
and is a permutation of the caller-supplied vertex label list. -/
theorem claim9_outputs_permute_labels {α : Type} (d : Dag) (elts : List α)
    (dflt : α) (hlen : elts.length = d.n) (out : List α)
    (hout : out ∈ LinearExtensions.iterLabels d elts dflt) :
    out.length = d.n ∧ List.Perm out elts := by
  rw [LinearExtensions.iterLabels, List.mem_map] at hout
  obtain ⟨e, he, rfl⟩ := hout
  have hp : List.Perm e (List.range d.n) := ((mem_linearExtensionsList d e).mp he).1
  have hmap : List.Perm (e.map fun i => elts.getD i dflt)
      ((List.range d.n).map fun i => elts.getD i dflt) := hp.map _
  have hid : (List.range d.n).map (fun i => elts.getD i dflt) = elts := by
    rw [← hlen]
    exact map_getD_range elts dflt
  rw [hid] at hmap
  exact ⟨by rw [hmap.length_eq, hlen], hmap⟩

theorem claim9_outputs_permute_labels_witness :
    ([10, 30, 20, 40, 50] : List Nat).length = exampleDag.n ∧
      List.Perm ([10, 30, 20, 40, 50] : List Nat) [10, 20, 30, 40, 50] :=
  claim9_outputs_permute_labels exampleDag [10, 20, 30, 40, 50] 0 (by decide)
    [10, 30, 20, 40, 50] (by decide)

/-- C10: The enumeration is deterministic in emission order: any two runs
started fresh over the same order emit the same extensions in the same
sequence order — namely the fixed list `linearExtensionsList d`. -/
theorem claim10_deterministic_emission_order (d : Dag) (s₁ s₂ : EnumState)
    (h₁ : s₁ = LinearExtensions.freshRun d) (h₂ : s₂ = LinearExtensions.freshRun d) :
    s₁.emissions = s₂.emissions ∧ s₁.emissions = linearExtensionsList d := by
  subst h₁
  subst h₂
  exact ⟨rfl, rfl⟩

theorem claim10_deterministic_emission_order_witness :
    (LinearExtensions.freshRun exampleDag).emissions =
        (LinearExtensions.freshRun exampleDag).emissions ∧
      (LinearExtensions.freshRun exampleDag).emissions = linearExtensionsList exampleDag :=
  claim10_deterministic_emission_order exampleDag _ _ rfl rfl

set_option maxRecDepth 100000 in
/-- C2 fails: over the order `{0→1, 2→3}` the emitted enumeration has a
consecutive pair that is not one adjacent transposition of incomparable
elements — and no ordering whatsoever of its six linear extensions (every
complete duplicate-free emission sequence is such an ordering) satisfies the
claimed property for all consecutive pairs, so the claim is unsatisfiable at
this input by any complete enumeration. -/
theorem claim2_adjacent_transposition_counterexample :
    grayB twoChainsDag (LinearExtensions.freshRun twoChainsDag).emissions = false ∧
      ((LinearExtensions.freshRun twoChainsDag).emissions.permutations'.all fun l =>
          !(grayB twoChainsDag l)) = true ∧
      (LinearExtensions.freshRun twoChainsDag).emissions.length = 6 := by
  exact ⟨by decide, by decide, by decide⟩

/-- C2 (amended): For every acyclic input DAG, every pair of consecutively
emitted extensions consists of two distinct valid linear extensions of the
order.  (The original claim — that each such pair differs by exactly one
adjacent transposition of incomparable elements — is refuted by the
counterexample: for `{0→1, 2→3}` no complete duplicate-free emission order
can satisfy it.) -/
theorem claim2_consecutive_emissions_distinct_valid (d : Dag)
    (hacy : isAcyclic d = true) (p q : List Nat)
    (h : (p, q) ∈ consecPairs (LinearExtensions.freshRun d).emissions) :
    p ≠ q ∧ IsLinearExtension d p ∧ IsLinearExtension d q := by
  have hm := consecPairs_mem _ p q h
  exact ⟨consecPairs_ne_of_nodup _ (linearExtensionsList_nodup d) p q h,
    (mem_linearExtensionsList d p).mp hm.1, (mem_linearExtensionsList d q).mp hm.2⟩

theorem claim2_consecutive_emissions_distinct_valid_witness :
    ([0, 1, 2, 3] : List Nat) ≠ [0, 2, 1, 3] ∧
      IsLinearExtension twoChainsDag [0, 1, 2, 3] ∧
      IsLinearExtension twoChainsDag [0, 2, 1, 3] :=
  claim2_consecutive_emissions_distinct_valid twoChainsDag (by decide)
    [0, 1, 2, 3] [0, 2, 1, 3] (by decide)
